import Mathlib

/-!
Verification of `update.py`, a script that syncs legislative bill status
data from OpenStates into an Airtable base.

The embedding below translates the source into Lean:

* the rate limiter `ratelimit` (lines 20–33) becomes a step function
  `rlStep` on the internal timestamp list together with a run function
  `rlRunGaps`; real time is modelled by rationals, and the blocking
  `time.sleep` is modelled by the call's effective execution time being
  pushed up to `last + burst / rate`;
* calendar dates (`datetime.date`) are modelled as abstract day ordinals
  (`Date := ℕ`) carrying the same linear order that the script uses for
  its comparisons;
* `main` (lines 36–144) is split into the per-bill procedure
  `processBill` and the driver `runMain`; fallible Python operations
  (`int(...)`, missing dictionary keys) return `Except`/`Option`.
-/

/-- One invocation of the `delayed` wrapper produced by `ratelimit`
(lines 23–31 of `update.py`).  `requests` is the internal timestamp
list, `now` the clock reading at entry.  Returns the effective execution
time (the clock reading after the optional sleep) and the updated list;
`none` models the `IndexError` of `requests.pop(0)` on an empty list. -/
def rlStep (rate : ℚ) (burst : ℕ) (requests : List ℚ) (now : ℚ) :
    Option (ℚ × List ℚ) :=
  if burst ≤ requests.length then
    match requests with
    | [] => none
    | last :: rest =>
      let t := if now < last + (burst : ℚ) / rate then last + (burst : ℚ) / rate else now
      some (t, rest ++ [t])
  else
    some (now, requests ++ [now])

/-- A sequence of calls through the wrapper.  The list `gs` gives, for
each call, the nonnegative delay between the previous call's completion
(initially `t`) and this call's arrival; a monotonic clock can produce
exactly these arrival times.  Returns the execution times of all calls,
the final timestamp list, and the final clock value. -/
def rlRunGaps (rate : ℚ) (burst : ℕ) :
    List ℚ → ℚ → List ℚ → Option (List ℚ × List ℚ × ℚ)
  | reqs, t, [] => some ([], reqs, t)
  | reqs, t, g :: gs =>
    (rlStep rate burst reqs (t + g)).bind fun p =>
      (rlRunGaps rate burst p.2 p.1 gs).map fun q => (p.1 :: q.1, q.2)

/-- Dates: `datetime.date` values ordered chronologically, modelled as
abstract day ordinals. -/
abbrev Date := ℕ

/-- Code points of the zero digit of every decade block of Unicode
decimal digits (category Nd).  This is the character class matched by
Python's `\\d` and accepted by `int()`; each block covers the listed
point through the listed point plus 9, and the digit's value is its
offset within the block. -/
def ndZeroPoints : List ℕ :=
  [48, 1632, 1776, 1984, 2406, 2534, 2662, 2790, 2918, 3046, 3174, 3302,
   3430, 3558, 3664, 3792, 3872, 4160, 4240, 6112, 6160, 6470, 6608, 6784,
   6800, 6992, 7088, 7232, 7248, 42528, 43216, 43264, 43472, 43504, 43600,
   44016, 65296, 66720, 68912, 69734, 69872, 69942, 70096, 70384, 70736,
   70864, 71248, 71360, 71472, 71904, 72016, 72784, 73040, 73120, 92768,
   92864, 93008, 120782, 120792, 120802, 120812, 120822, 123200, 123632,
   125264, 130032]

/-- The decimal value of a Unicode decimal digit, `none` otherwise. -/
def pyDecimalVal (c : Char) : Option ℕ :=
  (ndZeroPoints.find? (fun z => decide (z ≤ c.toNat) && decide (c.toNat ≤ z + 9))).map
    (fun z => c.toNat - z)

/-- The digit class of Python's `\\d` and of `int()`: Unicode
category Nd. -/
def pyIsDigit (c : Char) : Bool := (pyDecimalVal c).isSome

/-- Code points of the whitespace characters that Python's `int()`
strips from both ends of its argument. -/
def pyWhitespacePoints : List ℕ :=
  [9, 10, 11, 12, 13, 32, 133, 160, 5760, 8192, 8193, 8194, 8195, 8196,
   8197, 8198, 8199, 8200, 8201, 8202, 8232, 8233, 8239, 8287, 12288]

/-- Whitespace as stripped by Python's `int()`. -/
def pyIsSpace (c : Char) : Bool := pyWhitespacePoints.contains c.toNat

/-- Surrounding `int()` whitespace removed from a character list. -/
def stripChars (cs : List Char) : List Char :=
  ((cs.dropWhile pyIsSpace).reverse.dropWhile pyIsSpace).reverse

/-- Continuation of a digit run: further digits, with single
underscores allowed between two digits (PEP 515).  `acc` is the value
accumulated so far. -/
def pyDigitsAux : ℕ → List Char → Option ℕ
  | acc, [] => some acc
  | acc, '_' :: c :: cs =>
    match pyDecimalVal c with
    | some v => pyDigitsAux (acc * 10 + v) cs
    | none => none
  | _, '_' :: [] => none
  | acc, c :: cs =>
    match pyDecimalVal c with
    | some v => pyDigitsAux (acc * 10 + v) cs
    | none => none

/-- A nonempty digit run with optional single underscores between
digits, evaluated; `none` when empty or malformed. -/
def pyDigitsToNat : List Char → Option ℕ
  | [] => none
  | c :: cs =>
    match pyDecimalVal c with
    | some v => pyDigitsAux v cs
    | none => none

/-- Python's `int(s)` on a string: optional surrounding whitespace, an
optional ASCII sign, then at least one Unicode decimal digit, with
single underscores permitted between digits; anything else raises
`ValueError` (modelled as `none`). -/
def pyInt (s : String) : Option ℤ :=
  match stripChars s.toList with
  | '-' :: cs => (pyDigitsToNat cs).map (fun n => -(n : ℤ))
  | '+' :: cs => (pyDigitsToNat cs).map (fun n => (n : ℤ))
  | cs => (pyDigitsToNat cs).map (fun n => (n : ℤ))

/-- The configuration test applied to each API key (lines 38–41):
the key must be set, truthy, and `re.search(r"[a-z]", key)` must find a
lowercase letter.  `none` models an unset environment variable. -/
def keyValid : Option String → Bool
  | none => false
  | some s => (s ≠ "") && s.toList.any (fun c => 'a' ≤ c && c ≤ 'z')

/-- The substitution `re.sub(r"^([A-Z]+)(\d+)$", r"\1 \2", s)` of
line 67, with Python regex semantics: `[A-Z]` is the ASCII uppercase
range, `\\d` matches Unicode decimal digits, and `$` matches at the
end of the string or just before one trailing newline.  On a match one
space is inserted between the two runs (a trailing newline lies outside
the match and survives); otherwise the string is unchanged. -/
def normalizeBillId (s : String) : String :=
  let cs := s.toList
  let body := if cs.getLast? = some '\n' then cs.dropLast else cs
  let letters := body.takeWhile Char.isUpper
  let rest := body.dropWhile Char.isUpper
  if letters ≠ [] ∧ rest ≠ [] ∧ rest.all pyIsDigit then
    String.mk (letters ++ ' ' :: rest ++
      (if cs.getLast? = some '\n' then ['\n'] else []))
  else s

/-- The legislative-session key (lines 72–76): an odd year pairs with
the following year, an even year with the preceding one. -/
def legYear (year : ℤ) : String :=
  if year % 2 ≠ 0 then toString year ++ toString (year + 1)
  else toString (year - 1) ++ toString year

/-- One action record from `bill_data["actions"]`, with the date portion
already parsed (line 110 drops any time component). -/
structure ActionData where
  date : Date
  type : List String
  actor : String
  action : String
  deriving Repr, DecidableEq

/-- The upstream response for one bill: the convenience
`action_dates.last` date and the full action history. -/
structure BillData where
  lastActionDate : Date
  actions : List ActionData
  deriving Repr, DecidableEq

/-- One row of the Airtable "State" table: the record id and the
non-empty fields the script reads.  `none` models an absent key in
`bill["fields"]`. -/
structure BillRecord where
  id : String
  fieldBill : Option String
  fieldYear : Option String
  fieldLastUpdate : Option Date
  fieldReading : Option String
  fieldStatus : Option String
  deriving Repr, DecidableEq

/-- A row inserted into the "State status" table (lines 126–134). -/
structure StatusRow where
  billRef : List String
  status : String
  statusNotes : String
  dateLastChange : Date
  location : String
  reading : String
  deriving Repr, DecidableEq

/-- State of the per-bill action loop (lines 100–136): the current
reading, the rows inserted so far, and `bill_update_count`. -/
structure ActLoop where
  reading : Option String
  rows : List StatusRow
  count : ℕ
  deriving Repr, DecidableEq

/-- The two sequential reading-stage updates of lines 115–120, applied
after the `if not reading` initialisation. -/
def advanceReading (tags : List String) (r : String) : String :=
  let r1 := if "bill:reading:2" ∈ tags ∧ r = "First reading" then "Second reading" else r
  if "bill:reading:3" ∈ tags ∧ r1 = "Second reading" then "Third reading" else r1

/-- The body of the `for update_data in bill_data["actions"]` loop
(lines 106–136) for one action. -/
def actionStep (b : BillRecord) (latest : Option Date) (st : ActLoop)
    (a : ActionData) : ActLoop :=
  let skip : Bool := match latest with
    | some d => a.date ≤ d
    | none => false
  if skip then st
  else
    let r0 := st.reading.getD "First reading"
    let r := advanceReading a.type r0
    let location := if a.actor = "lower" then "Assembly" else "Senate"
    let row : StatusRow :=
      { billRef := [b.id]
        status := b.fieldStatus.getD "Moving"
        statusNotes := a.action
        dateLastChange := a.date
        location := location
        reading := r }
    { reading := some r, rows := st.rows ++ [row], count := st.count + 1 }

/-- Processing of one bill of the "State" table (lines 57–141).  `env`
models the rate-limited `get_bill` call: it maps `(state, term,
bill_id)` to the upstream response.  Returns the rows inserted for this
bill and the console lines printed, or the uncaught Python exception. -/
def processBill (env : String → String → BillData)
    (b : BillRecord) : Except String (List StatusRow × List String) :=
  match b.fieldBill with
  | none => .ok ([], [])
  | some rawBill =>
    let bill_id := normalizeBillId rawBill
    match b.fieldYear with
    | none => .error "KeyError: Year introduced"
    | some ys =>
      match pyInt ys with
      | none => .error ("ValueError: invalid literal for int() with base 10: " ++ ys)
      | some year =>
        let leg_year := legYear year
        let bd := env leg_year bill_id
        let latest := b.fieldLastUpdate
        let shortCircuit : Bool := match latest with
          | some d => bd.lastActionDate ≤ d
          | none => false
        if shortCircuit then
          .ok ([], [bill_id ++ ": No updates"])
        else
          let final := bd.actions.foldl (actionStep b latest)
            ⟨b.fieldReading, [], 0⟩
          .ok (final.rows,
            [bill_id ++ ": " ++ toString final.count ++ " update" ++
              (if final.count = 1 then "" else "s")])

/-- The `for bill in listed_bills` loop: processes bills in order,
concatenating inserted rows and console lines; an uncaught exception
aborts the rest of the run. -/
def runBills (env : String → String → BillData) :
    List BillRecord → Except String (List StatusRow × List String)
  | [] => .ok ([], [])
  | b :: rest =>
    match processBill env b with
    | .error e => .error e
    | .ok (rows, logs) =>
      match runBills env rest with
      | .error e => .error e
      | .ok (rows2, logs2) => .ok (rows ++ rows2, logs ++ logs2)

/-- The whole of `main` (lines 36–144): API-key validation, then the
bill loop, then the trailing summary lines. -/
def runMain (airtableKey openstatesKey : Option String)
    (env : String → String → BillData) (bills : List BillRecord) :
    Except String (List StatusRow × List String) :=
  if ¬ keyValid airtableKey then .error "AIRTABLE_API_KEY is not configured"
  else if ¬ keyValid openstatesKey then .error "OPENSTATES_API_KEY is not configured"
  else
    match runBills env bills with
    | .error e => .error e
    | .ok (rows, logs) =>
      .ok (rows, logs ++ ["", "See https://airtable.com/appVuarUc0kCpjwWn"])

/-- An action passes the date filter of lines 110–112: always when no
prior "Last update" exists, otherwise exactly when its date is strictly
after it. -/
def qualAction (latest : Option Date) (a : ActionData) : Bool :=
  match latest with
  | some d => decide (d < a.date)
  | none => true

/-- Position of a reading label in the First → Second → Third chain;
unknown labels and the unset state sit at rank 0. -/
def readingRank : Option String → ℕ
  | none => 0
  | some s =>
    if s = "First reading" then 1
    else if s = "Second reading" then 2
    else if s = "Third reading" then 3
    else 0

/-- A concrete upstream action history used to exercise the loop. -/
def sampleActions : List ActionData :=
  [⟨10, ["bill:reading:2"], "lower", "Read second time"⟩,
   ⟨11, ["bill:reading:3"], "upper", "Read third time"⟩,
   ⟨12, ["bill:reading:2"], "lower", "Read second time again"⟩]

/-- A concrete upstream environment returning `sampleActions`. -/
def sampleEnv : String → String → BillData := fun _ _ => ⟨12, sampleActions⟩

/-- A concrete "State" row with no prior "Last update". -/
def sampleBill : BillRecord :=
  ⟨"rec1", some "AB123", some "2023", none, some "First reading", none⟩

/-- A concrete "State" row whose "Last update" already covers
`sampleEnv`'s most recent action date. -/
def sampleBillUpToDate : BillRecord :=
  ⟨"rec1", some "AB123", some "2023", some 12, some "First reading", none⟩

/-- The rows that processing `sampleBill` against `sampleEnv` inserts. -/
def sampleRows : List StatusRow :=
  [⟨["rec1"], "Moving", "Read second time", 10, "Assembly", "Second reading"⟩,
   ⟨["rec1"], "Moving", "Read third time", 11, "Senate", "Third reading"⟩,
   ⟨["rec1"], "Moving", "Read second time again", 12, "Assembly", "Third reading"⟩]

/-- Unfolding of `rlRunGaps` on one more call. -/
lemma rlRunGaps_cons (R : ℚ) (B : ℕ) (reqs : List ℚ) (t g : ℚ) (gs : List ℚ) :
    rlRunGaps R B reqs t (g :: gs) =
      (rlStep R B reqs (t + g)).bind fun p =>
        (rlRunGaps R B p.2 p.1 gs).map fun q => (p.1 :: q.1, q.2) := rfl

/-- An unthrottled step: while the window is below capacity the call
executes at its arrival time. -/
lemma rlStep_free (R : ℚ) (B : ℕ) (reqs : List ℚ) (now : ℚ)
    (h : reqs.length < B) :
    rlStep R B reqs now = some (now, reqs ++ [now]) := by
  unfold rlStep
  rw [if_neg (by omega)]

/-- A throttled step on a full window of identical timestamps `t0`:
an immediate (B+1)-th call is pushed to `t0 + B / R`. -/
lemma rlStep_throttle (R : ℚ) (B : ℕ) (t0 : ℚ) (hB : 1 ≤ B) (hR : 0 < R) :
    rlStep R B (List.replicate B t0) (t0 + 0) =
      some (t0 + (B : ℚ) / R,
            List.replicate (B - 1) t0 ++ [t0 + (B : ℚ) / R]) := by
  obtain ⟨m, rfl⟩ : ∃ m, B = m + 1 := ⟨B - 1, by omega⟩
  have hpos : (0 : ℚ) < ((m + 1 : ℕ) : ℚ) / R := by
    apply div_pos _ hR
    exact_mod_cast Nat.succ_pos m
  unfold rlStep
  rw [if_pos (by simp)]
  simp only [List.replicate_succ]
  rw [if_pos (by linarith)]
  simp

/-- Starting from a window holding `j` copies of `t0`, issuing the
remaining `k = B - j` calls immediately (all arriving at `t0`) and then
one more: the first `k` execute at `t0`, the last at `t0 + B / R`. -/
lemma rlRunGaps_fill (R : ℚ) (B : ℕ) (t0 : ℚ) (hB : 1 ≤ B) (hR : 0 < R) :
    ∀ (k j : ℕ), j + k = B →
      rlRunGaps R B (List.replicate j t0) t0 (List.replicate (k + 1) 0) =
        some (List.replicate k t0 ++ [t0 + (B : ℚ) / R],
              List.replicate (B - 1) t0 ++ [t0 + (B : ℚ) / R],
              t0 + (B : ℚ) / R) := by
  intro k
  induction k with
  | zero =>
    intro j hj
    have hjB : j = B := by omega
    subst hjB
    have h1 : List.replicate (0 + 1) (0 : ℚ) = 0 :: List.replicate 0 0 := rfl
    rw [h1, rlRunGaps_cons]
    rw [rlStep_throttle R j t0 hB hR]
    simp [rlRunGaps]
  | succ k ih =>
    intro j hj
    have h1 : List.replicate (k + 1 + 1) (0 : ℚ) = 0 :: List.replicate (k + 1) 0 := rfl
    rw [h1, rlRunGaps_cons]
    rw [rlStep_free R B (List.replicate j t0) (t0 + 0) (by simp; omega)]
    simp only [Option.some_bind]
    have harr : t0 + 0 = t0 := by ring
    rw [harr]
    have h2 : List.replicate j t0 ++ [t0] = List.replicate (j + 1) t0 := by
      simp [List.replicate_succ']
    rw [h2]
    rw [ih (j + 1) (by omega)]
    simp [List.replicate_succ]

/-- C1: with burst capacity `B` and rate `R > 0`, after `B + 1`
back-to-back calls the last call executes no earlier than `B / R` after
the first call's recorded time. -/
theorem ratelimit_paces_burst (B : ℕ) (R t0 : ℚ) (hR : 0 < R)
    (ts fin : List ℚ) (tf : ℚ)
    (hrun : rlRunGaps R B [] t0 (List.replicate (B + 1) 0) = some (ts, fin, tf))
    (t1 tN : ℚ) (hfirst : ts.head? = some t1) (hlast : ts.getLast? = some tN) :
    t1 + (B : ℚ) / R ≤ tN := by
  rcases Nat.eq_zero_or_pos B with hB | hB
  · exfalso
    subst hB
    rw [show List.replicate (0 + 1) (0 : ℚ) = [0] from rfl, rlRunGaps_cons] at hrun
    simp [rlStep] at hrun
  · have hfill := rlRunGaps_fill R B t0 hB hR B 0 (by omega)
    rw [show List.replicate 0 t0 = ([] : List ℚ) from rfl] at hfill
    rw [hfill] at hrun
    simp only [Option.some.injEq, Prod.mk.injEq] at hrun
    obtain ⟨hts, _, _⟩ := hrun
    subst hts
    obtain ⟨m, rfl⟩ : ∃ m, B = m + 1 := ⟨B - 1, by omega⟩
    rw [List.replicate_succ, List.cons_append, List.head?_cons] at hfirst
    rw [List.getLast?_concat] at hlast
    have ht1 : t1 = t0 := by injection hfirst with h; exact h.symm
    have htN : tN = t0 + ((m + 1 : ℕ) : ℚ) / R := by injection hlast with h; exact h.symm
    rw [ht1, htN]

/-- Window invariant of the wrapper: starting from a sorted window of at
most `B` timestamps all at or before the clock, any run keeps the window
equal to the most recent `B` recorded call times, sorted, and bounded by
the final clock value. -/
lemma rlRunGaps_window (R : ℚ) (B : ℕ) (hB : 1 ≤ B) :
    ∀ (gs reqs : List ℚ) (t : ℚ),
      (∀ g ∈ gs, 0 ≤ g) →
      reqs.length ≤ B →
      List.Pairwise (· ≤ ·) reqs →
      (∀ x ∈ reqs, x ≤ t) →
      ∀ ts fin tf, rlRunGaps R B reqs t gs = some (ts, fin, tf) →
        fin = (reqs ++ ts).drop (reqs.length + ts.length - B) ∧
        List.Pairwise (· ≤ ·) fin ∧ ∀ x ∈ fin, x ≤ tf := by
  intro gs
  induction gs with
  | nil =>
    intro reqs t _ hlen hsort hbound ts fin tf hrun
    obtain ⟨h1, h2, h3⟩ : ([] : List ℚ) = ts ∧ reqs = fin ∧ t = tf := by
      simpa [rlRunGaps] using hrun
    subst h1; subst h2; subst h3
    have hidx : reqs.length + ([] : List ℚ).length - B = 0 := by simp; omega
    rw [hidx]
    exact ⟨by simp, hsort, hbound⟩
  | cons g gs ih =>
    intro reqs t hg hlen hsort hbound ts fin tf hrun
    rw [rlRunGaps_cons] at hrun
    have hg0 : 0 ≤ g := hg g (by simp)
    have hgs : ∀ x ∈ gs, 0 ≤ x := fun x hx => hg x (by simp [hx])
    have htg : t ≤ t + g := by linarith
    by_cases hfull : B ≤ reqs.length
    · have hlenB : reqs.length = B := le_antisymm hlen hfull
      obtain ⟨last, rest, rfl⟩ : ∃ la re, reqs = la :: re := by
        cases reqs with
        | nil => exfalso; simp at hlenB; omega
        | cons a l => exact ⟨a, l, rfl⟩
      have hstep : rlStep R B (last :: rest) (t + g) =
          some ((if t + g < last + (B : ℚ) / R then last + (B : ℚ) / R else t + g),
                rest ++ [if t + g < last + (B : ℚ) / R then last + (B : ℚ) / R else t + g]) := by
        unfold rlStep
        rw [if_pos hfull]
      set t2 := if t + g < last + (B : ℚ) / R then last + (B : ℚ) / R else t + g with ht2
      rw [hstep] at hrun
      simp only [Option.some_bind] at hrun
      cases hrec : rlRunGaps R B (rest ++ [t2]) t2 gs with
      | none => rw [hrec] at hrun; simp at hrun
      | some q =>
        obtain ⟨ts', fin', tf'⟩ := q
        rw [hrec] at hrun
        simp only [Option.map_some', Option.some.injEq, Prod.mk.injEq] at hrun
        obtain ⟨hts, hfin, htf⟩ := hrun
        subst hts; subst hfin; subst htf
        have htt2 : t + g ≤ t2 := by
          rw [ht2]; split_ifs with h
          · linarith
          · linarith
        have hboundrest : ∀ x ∈ rest, x ≤ t2 := by
          intro x hx
          have := hbound x (List.mem_cons_of_mem _ hx)
          linarith
        have hbound2 : ∀ x ∈ rest ++ [t2], x ≤ t2 := by
          intro x hx
          rcases List.mem_append.mp hx with hx | hx
          · exact hboundrest x hx
          · simp at hx; subst hx; exact le_refl _
        have hsort2 : List.Pairwise (· ≤ ·) (rest ++ [t2]) := by
          rw [List.pairwise_append]
          refine ⟨(List.sorted_cons.mp hsort).2, List.pairwise_singleton _ _, ?_⟩
          intro a ha b hb
          simp at hb; subst hb
          exact hboundrest a ha
        have hlen2 : (rest ++ [t2]).length ≤ B := by
          simp at hlenB ⊢; omega
        obtain ⟨hfin', hsortfin, hboundfin⟩ :=
          ih (rest ++ [t2]) t2 hgs hlen2 hsort2 hbound2 ts' fin' tf' hrec
        refine ⟨?_, hsortfin, hboundfin⟩
        rw [hfin']
        have hl1 : (last :: rest) ++ (t2 :: ts') = last :: ((rest ++ [t2]) ++ ts') := by
          simp
        rw [hl1]
        have hidx : (last :: rest).length + (t2 :: ts').length - B = ts'.length + 1 := by
          simp at hlenB ⊢; omega
        rw [hidx, List.drop_succ_cons]
        have hidx2 : (rest ++ [t2]).length + ts'.length - B = ts'.length := by
          simp at hlenB ⊢; omega
        rw [hidx2]
    · have hstep : rlStep R B reqs (t + g) = some (t + g, reqs ++ [t + g]) :=
        rlStep_free R B reqs (t + g) (by omega)
      rw [hstep] at hrun
      simp only [Option.some_bind] at hrun
      cases hrec : rlRunGaps R B (reqs ++ [t + g]) (t + g) gs with
      | none => rw [hrec] at hrun; simp at hrun
      | some q =>
        obtain ⟨ts', fin', tf'⟩ := q
        rw [hrec] at hrun
        simp only [Option.map_some', Option.some.injEq, Prod.mk.injEq] at hrun
        obtain ⟨hts, hfin, htf⟩ := hrun
        subst hts; subst hfin; subst htf
        have hboundreqs : ∀ x ∈ reqs, x ≤ t + g := by
          intro x hx
          have := hbound x hx
          linarith
        have hbound2 : ∀ x ∈ reqs ++ [t + g], x ≤ t + g := by
          intro x hx
          rcases List.mem_append.mp hx with hx | hx
          · exact hboundreqs x hx
          · simp at hx; subst hx; exact le_refl _
        have hsort2 : List.Pairwise (· ≤ ·) (reqs ++ [t + g]) := by
          rw [List.pairwise_append]
          exact ⟨hsort, List.pairwise_singleton _ _, fun a ha b hb => by
            simp at hb; subst hb; exact hboundreqs a ha⟩
        have hlen2 : (reqs ++ [t + g]).length ≤ B := by simp; omega
        obtain ⟨hfin', hsortfin, hboundfin⟩ :=
          ih (reqs ++ [t + g]) (t + g) hgs hlen2 hsort2 hbound2 ts' fin' tf' hrec
        refine ⟨?_, hsortfin, hboundfin⟩
        rw [hfin']
        have hl1 : reqs ++ ((t + g) :: ts') = (reqs ++ [t + g]) ++ ts' := by simp
        rw [hl1]
        have hidx : reqs.length + ((t + g) :: ts').length - B =
            (reqs ++ [t + g]).length + ts'.length - B := by simp; omega
        rw [hidx]

/-- C9: with burst capacity `B ≥ 1`, after any sequence of invocations
the internal list holds the `min(calls, B)` most recent call times,
oldest first: exactly one entry is evicted per call once the window is
full. -/
theorem ratelimit_sliding_window (B : ℕ) (hB : 1 ≤ B) (R t0 : ℚ) (gs : List ℚ)
    (hg : ∀ g ∈ gs, 0 ≤ g) (ts fin : List ℚ) (tf : ℚ)
    (hrun : rlRunGaps R B [] t0 gs = some (ts, fin, tf)) :
    fin = ts.drop (ts.length - B) ∧
    fin.length = min ts.length B ∧
    List.Sorted (· ≤ ·) fin := by
  obtain ⟨h1, h2, _⟩ :=
    rlRunGaps_window R B hB gs [] t0 hg (by simp) (by simp) (by simp) ts fin tf hrun
  refine ⟨by simpa using h1, ?_, h2⟩
  rw [h1]
  simp only [List.length_nil, List.nil_append, List.length_drop, Nat.zero_add]
  omega

/-- Witness for C9: three immediate calls with burst 2 and rate 1. -/
theorem ratelimit_sliding_window_witness :
    ([0, 2] : List ℚ) = ([0, 0, 2] : List ℚ).drop (([0, 0, 2] : List ℚ).length - 2) ∧
    ([0, 2] : List ℚ).length = min ([0, 0, 2] : List ℚ).length 2 ∧
    List.Sorted (· ≤ ·) ([0, 2] : List ℚ) :=
  ratelimit_sliding_window 2 (by norm_num) 1 0 [0, 0, 0] (by norm_num) [0, 0, 2] [0, 2] 2
    (by norm_num [rlRunGaps_cons, rlRunGaps, rlStep])

/-- Witness for C1: three immediate calls with burst 2 and rate 1; the
third executes at time 2 = 0 + 2 / 1. -/
theorem ratelimit_paces_burst_witness :
    (0 : ℚ) + ((2 : ℕ) : ℚ) / (1 : ℚ) ≤ (2 : ℚ) :=
  ratelimit_paces_burst 2 1 0 (by norm_num) [0, 0, 2] [0, 2] 2
    (by norm_num [show List.replicate (2 + 1) (0 : ℚ) = [0, 0, 0] from rfl,
      rlRunGaps_cons, rlRunGaps, rlStep]) 0 2 (by norm_num) (by norm_num [List.getLast?])

/-- A date-skipped action leaves the loop state unchanged. -/
lemma actionStep_skip (b : BillRecord) (latest : Option Date) (st : ActLoop)
    (a : ActionData) (h : qualAction latest a = false) :
    actionStep b latest st a = st := by
  unfold actionStep
  cases latest with
  | none => simp [qualAction] at h
  | some d =>
    simp only [qualAction, decide_eq_false_iff_not, not_lt] at h
    simp [h]

/-- A qualifying action appends exactly one row carrying its date and
bumps the counter. -/
lemma actionStep_process (b : BillRecord) (latest : Option Date) (st : ActLoop)
    (a : ActionData) (h : qualAction latest a = true) :
    ∃ row : StatusRow, row.dateLastChange = a.date ∧
      actionStep b latest st a =
        { reading := some (advanceReading a.type (st.reading.getD "First reading"))
          rows := st.rows ++ [row]
          count := st.count + 1 } := by
  refine ⟨{ billRef := [b.id], status := b.fieldStatus.getD "Moving",
            statusNotes := a.action, dateLastChange := a.date,
            location := if a.actor = "lower" then "Assembly" else "Senate",
            reading := advanceReading a.type (st.reading.getD "First reading") },
          rfl, ?_⟩
  unfold actionStep
  cases latest with
  | none => rfl
  | some d =>
    simp only [qualAction, decide_eq_true_eq] at h
    have hd : (decide (a.date ≤ d)) = false := by
      simp only [decide_eq_false_iff_not, not_le]
      exact h
    simp only [hd, Bool.false_eq_true, if_false]

/-- The action loop's counter counts exactly the qualifying actions, and
its inserted rows carry exactly the qualifying actions' dates in
order. -/
lemma foldl_actionStep_spec (b : BillRecord) (latest : Option Date) :
    ∀ (actions : List ActionData) (st : ActLoop),
      (actions.foldl (actionStep b latest) st).count =
        st.count + (actions.filter (qualAction latest)).length ∧
      (actions.foldl (actionStep b latest) st).rows.map (fun r => r.dateLastChange) =
        st.rows.map (fun r => r.dateLastChange) ++
          (actions.filter (qualAction latest)).map (fun a => a.date) := by
  intro actions
  induction actions with
  | nil => intro st; simp
  | cons a as ih =>
    intro st
    cases hq : qualAction latest a with
    | false =>
      rw [List.foldl_cons, actionStep_skip b latest st a hq]
      simpa [List.filter_cons, hq] using ih st
    | true =>
      rw [List.foldl_cons]
      obtain ⟨row, hrowdate, hstep⟩ := actionStep_process b latest st a hq
      rw [hstep]
      obtain ⟨ihc, ihr⟩ := ih
        { reading := some (advanceReading a.type (st.reading.getD "First reading"))
          rows := st.rows ++ [row]
          count := st.count + 1 }
      constructor
      · rw [ihc]
        simp [List.filter_cons, hq]
        omega
      · rw [ihr]
        simp [List.filter_cons, hq, hrowdate]

/-- C2: in the per-bill loop, a Status Row is inserted for an action iff
its date is strictly after the stored last-update date `D` (for every
action when no date is stored), and the emitted-row count equals exactly
the number of such actions. -/
theorem diff_rows_iff_after (b : BillRecord) (actions : List ActionData) :
    (∀ D : Date,
      (actions.foldl (actionStep b (some D)) ⟨b.fieldReading, [], 0⟩).count =
        (actions.filter (fun a => decide (D < a.date))).length ∧
      (actions.foldl (actionStep b (some D)) ⟨b.fieldReading, [], 0⟩).rows.map
          (fun r => r.dateLastChange) =
        (actions.filter (fun a => decide (D < a.date))).map (fun a => a.date)) ∧
    ((actions.foldl (actionStep b none) ⟨b.fieldReading, [], 0⟩).count =
        actions.length ∧
      (actions.foldl (actionStep b none) ⟨b.fieldReading, [], 0⟩).rows.map
          (fun r => r.dateLastChange) = actions.map (fun a => a.date)) := by
  constructor
  · intro D
    have h := foldl_actionStep_spec b (some D) actions ⟨b.fieldReading, [], 0⟩
    exact ⟨by simpa [qualAction] using h.1, by simpa [qualAction] using h.2⟩
  · have h := foldl_actionStep_spec b none actions ⟨b.fieldReading, [], 0⟩
    rw [show qualAction none = fun (_ : ActionData) => true from rfl,
      List.filter_true] at h
    exact ⟨by simpa using h.1, by simpa using h.2⟩

/-- The function `advanceReading` never moves a reading label backwards. -/
lemma advanceReading_mono (tags : List String) (s : String) :
    readingRank (some s) ≤ readingRank (some (advanceReading tags s)) := by
  simp only [advanceReading]
  split_ifs with hA hB hB
  · obtain ⟨-, rfl⟩ := hA
    decide
  · obtain ⟨-, rfl⟩ := hA
    decide
  · obtain ⟨-, rfl⟩ := hB
    decide
  · exact le_refl _

/-- One loop iteration never decreases the reading rank. -/
lemma actionStep_reading_mono (b : BillRecord) (latest : Option Date)
    (st : ActLoop) (a : ActionData) :
    readingRank st.reading ≤ readingRank (actionStep b latest st a).reading := by
  cases hq : qualAction latest a with
  | false =>
    rw [actionStep_skip b latest st a hq]
  | true =>
    obtain ⟨row, -, hstep⟩ := actionStep_process b latest st a hq
    rw [hstep]
    cases hr : st.reading with
    | none => exact Nat.zero_le _
    | some s => simpa using advanceReading_mono a.type s

/-- The whole loop never decreases the reading rank. -/
lemma foldl_reading_mono (b : BillRecord) (latest : Option Date) :
    ∀ (actions : List ActionData) (st : ActLoop),
      readingRank st.reading ≤
        readingRank ((actions.foldl (actionStep b latest) st).reading) := by
  intro actions
  induction actions with
  | nil => intro st; exact le_refl _
  | cons a as ih =>
    intro st
    exact le_trans (actionStep_reading_mono b latest st a) (ih (actionStep b latest st a))

/-- C3: within one bill the reading stage only ever advances along
First → Second → Third; in particular from "First reading", actions
tagged second, third, second produce the stages Second, Third, Third. -/
theorem reading_stage_monotone :
    (∀ (b : BillRecord) (latest : Option Date) (actions : List ActionData) (st : ActLoop),
      readingRank st.reading ≤
        readingRank ((actions.foldl (actionStep b latest) st).reading)) ∧
    (sampleActions.foldl (actionStep sampleBill none)
        ⟨sampleBill.fieldReading, [], 0⟩).rows.map (fun r => r.reading) =
      ["Second reading", "Third reading", "Third reading"] := by
  constructor
  · intro b latest actions st
    exact foldl_reading_mono b latest actions st
  · decide

/-- Short-circuit shape of `processBill` (lines 93–98). -/
lemma processBill_uptodate (env : String → String → BillData) (b : BillRecord)
    (raw ys : String) (y : ℤ) (D : Date)
    (hBill : b.fieldBill = some raw) (hYs : b.fieldYear = some ys)
    (hy : pyInt ys = some y) (hD : b.fieldLastUpdate = some D)
    (hle : (env (legYear y) (normalizeBillId raw)).lastActionDate ≤ D) :
    processBill env b = .ok ([], [normalizeBillId raw ++ ": No updates"]) := by
  simp only [processBill, hBill, hYs, hy, hD]
  simp [hle]

/-- Loop-branch shape of `processBill` (lines 100–141): when the bill is
not up to date the result is the loop state's rows and the count line. -/
lemma processBill_loop (env : String → String → BillData) (b : BillRecord)
    (raw ys : String) (y : ℤ)
    (hBill : b.fieldBill = some raw) (hYs : b.fieldYear = some ys)
    (hy : pyInt ys = some y)
    (hsc : ∀ d, b.fieldLastUpdate = some d →
      ¬ (env (legYear y) (normalizeBillId raw)).lastActionDate ≤ d) :
    processBill env b =
      .ok ((((env (legYear y) (normalizeBillId raw)).actions).foldl
              (actionStep b b.fieldLastUpdate) ⟨b.fieldReading, [], 0⟩).rows,
           [normalizeBillId raw ++ ": " ++
              toString ((((env (legYear y) (normalizeBillId raw)).actions).foldl
                (actionStep b b.fieldLastUpdate) ⟨b.fieldReading, [], 0⟩).count) ++
              " update" ++
              (if (((env (legYear y) (normalizeBillId raw)).actions).foldl
                    (actionStep b b.fieldLastUpdate) ⟨b.fieldReading, [], 0⟩).count = 1
               then "" else "s")]) := by
  simp only [processBill, hBill, hYs, hy]
  cases hLU : b.fieldLastUpdate with
  | none => simp
  | some d => simp [hsc d hLU]

/-- C4: a bill with a stored last-update date at or after the upstream
most-recent-action date emits no rows and prints the "No updates" line,
whatever the action history contains. -/
theorem upToDate_short_circuit (env : String → String → BillData) (b : BillRecord)
    (raw ys : String) (y : ℤ) (D : Date)
    (hBill : b.fieldBill = some raw) (hYs : b.fieldYear = some ys)
    (hy : pyInt ys = some y) (hD : b.fieldLastUpdate = some D)
    (hle : (env (legYear y) (normalizeBillId raw)).lastActionDate ≤ D) :
    processBill env b = .ok ([], [normalizeBillId raw ++ ": No updates"]) :=
  processBill_uptodate env b raw ys y D hBill hYs hy hD hle

/-- Witness for C4: an up-to-date bill against `sampleEnv`. -/
theorem upToDate_short_circuit_witness :
    processBill sampleEnv sampleBillUpToDate =
      .ok ([], [normalizeBillId "AB123" ++ ": No updates"]) :=
  upToDate_short_circuit sampleEnv sampleBillUpToDate "AB123" "2023" 2023 12
    rfl rfl (by decide) rfl (by decide)

/-- C5: if a run of a bill inserted rows and the stored "Last update" is
then set to the latest inserted date, a second run against the same
upstream data inserts no rows for that bill. -/
theorem sync_idempotent (env : String → String → BillData) (b : BillRecord)
    (rows : List StatusRow) (logs : List String) (M : Date)
    (h1 : processBill env b = .ok (rows, logs))
    (hM : M ∈ rows.map (fun r => r.dateLastChange))
    (hmax : ∀ d ∈ rows.map (fun r => r.dateLastChange), d ≤ M) :
    ∃ logs2, processBill env { b with fieldLastUpdate := some M } = .ok ([], logs2) := by
  have hne : rows ≠ [] := by
    rintro rfl
    simp at hM
  cases hBill : b.fieldBill with
  | none =>
    exfalso
    simp only [processBill, hBill, Except.ok.injEq, Prod.mk.injEq] at h1
    exact hne h1.1.symm
  | some raw =>
  cases hYs : b.fieldYear with
  | none =>
    exfalso
    simp only [processBill, hBill, hYs] at h1
    exact Except.noConfusion h1
  | some ys =>
  cases hy : pyInt ys with
  | none =>
    exfalso
    simp only [processBill, hBill, hYs, hy] at h1
    exact Except.noConfusion h1
  | some y =>
  have hnotsc : ∀ d, b.fieldLastUpdate = some d →
      ¬ (env (legYear y) (normalizeBillId raw)).lastActionDate ≤ d := by
    intro d hd hle
    have hud := processBill_uptodate env b raw ys y d hBill hYs hy hd hle
    rw [hud] at h1
    simp only [Except.ok.injEq, Prod.mk.injEq] at h1
    exact hne h1.1.symm
  have hloop := processBill_loop env b raw ys y hBill hYs hy hnotsc
  rw [hloop] at h1
  simp only [Except.ok.injEq, Prod.mk.injEq] at h1
  obtain ⟨hr, -⟩ := h1
  have hrows : rows.map (fun r => r.dateLastChange) =
      (((env (legYear y) (normalizeBillId raw)).actions).filter
        (qualAction b.fieldLastUpdate)).map (fun a => a.date) := by
    rw [← hr]
    simpa using (foldl_actionStep_spec b b.fieldLastUpdate
      ((env (legYear y) (normalizeBillId raw)).actions) ⟨b.fieldReading, [], 0⟩).2
  have hnone : ∀ a ∈ (env (legYear y) (normalizeBillId raw)).actions, ¬ M < a.date := by
    intro a ha hlt
    have hqual : qualAction b.fieldLastUpdate a = true := by
      cases hLU : b.fieldLastUpdate with
      | none => rfl
      | some d0 =>
        rw [hLU] at hrows
        rw [hrows] at hM
        obtain ⟨a0, ha0mem, ha0date⟩ := List.mem_map.mp hM
        have hq0 := List.of_mem_filter ha0mem
        simp only [qualAction, decide_eq_true_eq] at hq0
        simp only [qualAction, decide_eq_true_eq]
        have hd0M : d0 < M := by
          rw [← ha0date]
          exact hq0
        exact lt_trans hd0M hlt
    have hmem : a.date ∈ rows.map (fun r => r.dateLastChange) := by
      rw [hrows]
      exact List.mem_map_of_mem _ (List.mem_filter.mpr ⟨ha, hqual⟩)
    exact absurd (hmax a.date hmem) (not_le.mpr hlt)
  by_cases hsc : (env (legYear y) (normalizeBillId raw)).lastActionDate ≤ M
  · exact ⟨[normalizeBillId raw ++ ": No updates"],
      processBill_uptodate env ⟨b.id, some raw, some ys, some M, b.fieldReading, b.fieldStatus⟩
        raw ys y M rfl rfl hy rfl hsc⟩
  · have hloop2 := processBill_loop env
      ⟨b.id, some raw, some ys, some M, b.fieldReading, b.fieldStatus⟩ raw ys y rfl rfl hy
      (by
        intro d hd
        have hMd : M = d := by
          have h2 : some M = some d := hd
          injection h2
        rw [← hMd]
        exact hsc)
    have hfilter : ((env (legYear y) (normalizeBillId raw)).actions).filter
        (qualAction (some M)) = [] := by
      rw [List.filter_eq_nil_iff]
      intro a ha
      simp only [qualAction, decide_eq_true_eq]
      exact hnone a ha
    have hspec2 := (foldl_actionStep_spec
      ⟨b.id, some raw, some ys, some M, b.fieldReading, b.fieldStatus⟩ (some M)
      ((env (legYear y) (normalizeBillId raw)).actions) ⟨b.fieldReading, [], 0⟩).2
    have hnil : (((env (legYear y) (normalizeBillId raw)).actions).foldl
        (actionStep ⟨b.id, some raw, some ys, some M, b.fieldReading, b.fieldStatus⟩ (some M))
        ⟨b.fieldReading, [], 0⟩).rows = [] := by
      have hmap : ((((env (legYear y) (normalizeBillId raw)).actions).foldl
          (actionStep ⟨b.id, some raw, some ys, some M, b.fieldReading, b.fieldStatus⟩ (some M))
          ⟨b.fieldReading, [], 0⟩).rows).map (fun r => r.dateLastChange) = [] := by
        rw [hspec2, hfilter]
        simp
      exact List.map_eq_nil_iff.mp hmap
    rw [show (⟨b.id, some raw, some ys, some M, b.fieldReading, b.fieldStatus⟩ :
          BillRecord).fieldLastUpdate = some M from rfl,
        show (⟨b.id, some raw, some ys, some M, b.fieldReading, b.fieldStatus⟩ :
          BillRecord).fieldReading = b.fieldReading from rfl] at hloop2
    rw [hnil] at hloop2
    exact ⟨_, hloop2⟩

/-- Witness for C5: after a first run of `sampleBill` that inserted rows
dated 10, 11, 12, a second run with "Last update" = 12 inserts none. -/
theorem sync_idempotent_witness :
    ∃ logs2, processBill sampleEnv { sampleBill with fieldLastUpdate := some 12 } =
      .ok ([], logs2) :=
  sync_idempotent sampleEnv sampleBill sampleRows ["AB 123: 3 updates"] 12
    rfl (by decide) (by decide)

/-- C6: the session key concatenates year and successor for odd years,
predecessor and year for even years; 2023 and 2024 both give
"20232024". -/
theorem session_key_spec :
    (∀ y : ℤ, Odd y → legYear y = toString y ++ toString (y + 1)) ∧
    (∀ y : ℤ, Even y → legYear y = toString (y - 1) ++ toString y) ∧
    legYear 2023 = "20232024" ∧ legYear 2024 = "20232024" := by
  refine ⟨?_, ?_, ?_, ?_⟩
  · intro y hy
    have h2 : y % 2 = 1 := Int.odd_iff.mp hy
    unfold legYear
    rw [if_pos (by omega)]
  · intro y hy
    have h2 : y % 2 = 0 := Int.even_iff.mp hy
    unfold legYear
    rw [if_neg (by omega)]
  · rfl
  · rfl

/-- Witness for C6: 2023 is odd and keys to "2023" ++ "2024". -/
theorem session_key_spec_witness :
    legYear 2023 = toString (2023 : ℤ) ++ toString ((2023 : ℤ) + 1) :=
  session_key_spec.1 2023 ⟨1011, by norm_num⟩

/-- A successful whole run means every listed bill processed without an
exception. -/
lemma runBills_ok_of_mem (env : String → String → BillData) :
    ∀ (bills : List BillRecord) (r : List StatusRow × List String),
      runBills env bills = .ok r →
      ∀ b ∈ bills, ∃ x, processBill env b = .ok x := by
  intro bills
  induction bills with
  | nil =>
    intro r _ b hb
    simp at hb
  | cons c cs ih =>
    intro r h b hb
    unfold runBills at h
    cases hc : processBill env c with
    | error e =>
      rw [hc] at h
      exact Except.noConfusion h
    | ok p =>
      obtain ⟨rows, logs⟩ := p
      rw [hc] at h
      cases hrest : runBills env cs with
      | error e =>
        rw [hrest] at h
        exact Except.noConfusion h
      | ok q =>
        rcases List.mem_cons.mp hb with rfl | hb
        · exact ⟨(rows, logs), hc⟩
        · exact ih q hrest b hb

/-- C8: the run aborts with a configuration error — independently of any
upstream data or store contents, hence before any network or store
activity — if and only if one of the two API keys is absent or contains
no lowercase letter. -/
theorem config_validation (a o : Option String) :
    (keyValid a = false ∨ keyValid o = false) ↔
      (∃ msg, (msg = "AIRTABLE_API_KEY is not configured" ∨
               msg = "OPENSTATES_API_KEY is not configured") ∧
        ∀ (env2 : String → String → BillData) (bills2 : List BillRecord),
          runMain a o env2 bills2 = .error msg) := by
  constructor
  · intro h
    cases hA : keyValid a with
    | false =>
      refine ⟨"AIRTABLE_API_KEY is not configured", Or.inl rfl, ?_⟩
      intro env2 bills2
      unfold runMain
      rw [if_pos (by simp [hA])]
    | true =>
      have hO : keyValid o = false := by
        rcases h with h | h
        · rw [hA] at h
          exact absurd h (by simp)
        · exact h
      refine ⟨"OPENSTATES_API_KEY is not configured", Or.inr rfl, ?_⟩
      intro env2 bills2
      unfold runMain
      rw [if_neg (by simp [hA]), if_pos (by simp [hO])]
  · rintro ⟨msg, hmsg, hall⟩
    by_contra hcon
    push_neg at hcon
    obtain ⟨ha, ho⟩ := hcon
    have hA : keyValid a = true := by
      cases h : keyValid a with
      | false => exact absurd h ha
      | true => rfl
    have hO : keyValid o = true := by
      cases h : keyValid o with
      | false => exact absurd h ho
      | true => rfl
    have h0 := hall (fun _ _ => ⟨0, []⟩) []
    unfold runMain at h0
    rw [if_neg (by simp [hA]), if_neg (by simp [hO])] at h0
    simp [runBills] at h0

/-- Witness for C8: an unset first key yields the configuration error on
every environment and bill list. -/
theorem config_validation_witness :
    ∃ msg, (msg = "AIRTABLE_API_KEY is not configured" ∨
            msg = "OPENSTATES_API_KEY is not configured") ∧
      ∀ (env2 : String → String → BillData) (bills2 : List BillRecord),
        runMain none (some "abc") env2 bills2 = .error msg :=
  (config_validation none (some "abc")).mp (Or.inl rfl)

/-- C10: a row lacking a bill id is skipped silently; a row having one
but lacking "Year introduced", or whose year is not an integer string,
raises an uncaught exception and the whole run cannot complete. -/
theorem missing_year_fatal (env : String → String → BillData) (b : BillRecord) :
    (b.fieldBill = none → processBill env b = .ok ([], [])) ∧
    (∀ raw, b.fieldBill = some raw → b.fieldYear = none →
      processBill env b = .error "KeyError: Year introduced") ∧
    (∀ raw ys, b.fieldBill = some raw → b.fieldYear = some ys → pyInt ys = none →
      processBill env b =
        .error ("ValueError: invalid literal for int() with base 10: " ++ ys)) ∧
    (∀ e, processBill env b = .error e →
      ∀ (ak okey : Option String) (pre post : List BillRecord)
        (res : List StatusRow × List String),
        runMain ak okey env (pre ++ b :: post) ≠ .ok res) := by
  refine ⟨?_, ?_, ?_, ?_⟩
  · intro hB
    simp [processBill, hB]
  · intro raw hB hY
    simp [processBill, hB, hY]
  · intro raw ys hB hY hy
    simp [processBill, hB, hY, hy]
  · intro e he ak okey pre post res hok
    unfold runMain at hok
    by_cases hA : keyValid ak = true
    · rw [if_neg (by simp [hA])] at hok
      by_cases hO : keyValid okey = true
      · rw [if_neg (by simp [hO])] at hok
        cases hrb : runBills env (pre ++ b :: post) with
        | error e2 =>
          rw [hrb] at hok
          exact Except.noConfusion hok
        | ok r =>
          obtain ⟨rows, logs⟩ := r
          obtain ⟨x, hx⟩ := runBills_ok_of_mem env (pre ++ b :: post) (rows, logs)
            hrb b (by simp)
          rw [he] at hx
          exact Except.noConfusion hx
      · rw [if_pos (by simp [hO])] at hok
        exact Except.noConfusion hok
    · rw [if_pos (by simp [hA])] at hok
      exact Except.noConfusion hok

/-- Witness for C10: a bill with an id but no "Year introduced" raises
the KeyError. -/
theorem missing_year_fatal_witness :
    processBill sampleEnv ⟨"rec9", some "AB123", none, none, none, none⟩ =
      .error "KeyError: Year introduced" :=
  (missing_year_fatal sampleEnv ⟨"rec9", some "AB123", none, none, none, none⟩).2.1
    "AB123" rfl rfl

/-- Unicode decimal digits are not ASCII uppercase letters: the ASCII
digit block ends at 57 < 65, and every other block starts at
1632 > 90. -/
lemma pyIsDigit_not_isUpper (c : Char) (h : pyIsDigit c = true) : c.isUpper = false := by
  simp only [pyIsDigit, pyDecimalVal, Option.isSome_map'] at h
  obtain ⟨z, hz⟩ := Option.isSome_iff_exists.mp h
  have hmem := List.mem_of_find?_eq_some hz
  have hp := List.find?_some hz
  simp only [Bool.and_eq_true, decide_eq_true_eq] at hp
  obtain ⟨hz1, hz2⟩ := hp
  have hcases : z = 48 ∨ 1632 ≤ z := by
    have hall : ∀ x ∈ ndZeroPoints, x = 48 ∨ 1632 ≤ x := by decide
    exact hall z hmem
  simp only [Char.isUpper, Bool.and_eq_false_iff, decide_eq_false_iff_not]
  have e3 : c.val.toNat = c.toNat := rfl
  rcases hcases with rfl | hge
  · left
    intro hc
    have hc2 : (65 : UInt32).toNat ≤ c.val.toNat := hc
    have e1 : (65 : UInt32).toNat = 65 := rfl
    omega
  · right
    intro hc
    have hc2 : c.val.toNat ≤ (90 : UInt32).toNat := hc
    have e1 : (90 : UInt32).toNat = 90 := rfl
    omega

/-- The function `takeWhile` passes over a prefix on which the predicate holds. -/
lemma takeWhile_all_append {α : Type} (p : α → Bool) :
    ∀ (L D : List α), (∀ c ∈ L, p c = true) →
      (L ++ D).takeWhile p = L ++ D.takeWhile p := by
  intro L
  induction L with
  | nil => intro D _; simp
  | cons c L2 ih =>
    intro D hL
    have hc : p c = true := hL c (by simp)
    simp only [List.cons_append, List.takeWhile_cons, hc, if_true]
    rw [ih D (fun x hx => hL x (by simp [hx]))]

/-- The function `dropWhile` removes a prefix on which the predicate holds. -/
lemma dropWhile_all_append {α : Type} (p : α → Bool) :
    ∀ (L D : List α), (∀ c ∈ L, p c = true) →
      (L ++ D).dropWhile p = D.dropWhile p := by
  intro L
  induction L with
  | nil => intro D _; simp
  | cons c L2 ih =>
    intro D hL
    have hc : p c = true := hL c (by simp)
    simp only [List.cons_append, List.dropWhile_cons, hc, if_true]
    exact ih D (fun x hx => hL x (by simp [hx]))

/-- C7 counterexample: "AB123\n" is not a run of uppercase letters
followed by a run of digits (its last character is a newline), yet the
program rewrites it to "AB 123\n" instead of returning it
unchanged. -/
theorem normalize_bill_id_counterexample :
    (¬ ∃ L D : List Char, L ≠ [] ∧ D ≠ [] ∧ (∀ c ∈ L, c.isUpper = true) ∧
      (∀ c ∈ D, pyIsDigit c = true) ∧ ("AB123\n").toList = L ++ D) ∧
    normalizeBillId "AB123\n" = "AB 123\n" ∧ "AB 123\n" ≠ "AB123\n" := by
  refine ⟨?_, by decide, by decide⟩
  rintro ⟨L, D, hL, hD, hLU, hDD, heq⟩
  have hmem : '\n' ∈ L ++ D := by
    rw [← heq]
    decide
  rcases List.mem_append.mp hmem with h | h
  · exact absurd (hLU _ h) (by decide)
  · exact absurd (hDD _ h) (by decide)

/-- C7 as amended: a nonempty run of ASCII uppercase letters followed
by a nonempty run of Unicode decimal digits, with at most one trailing
newline, gets exactly one space inserted between the two runs (the
newline surviving); every other string is returned unchanged. -/
theorem normalize_bill_id_amended :
    (∀ L D T : List Char, (T = [] ∨ T = ['\n']) → L ≠ [] → D ≠ [] →
      (∀ c ∈ L, c.isUpper = true) → (∀ c ∈ D, pyIsDigit c = true) →
      normalizeBillId (String.mk (L ++ D ++ T)) = String.mk (L ++ ' ' :: D ++ T)) ∧
    (∀ s : String,
      (¬ ∃ L D T : List Char, (T = [] ∨ T = ['\n']) ∧ L ≠ [] ∧ D ≠ [] ∧
        (∀ c ∈ L, c.isUpper = true) ∧ (∀ c ∈ D, pyIsDigit c = true) ∧
        s.toList = L ++ D ++ T) →
      normalizeBillId s = s) := by
  constructor
  · intro L D T hT hL hD hLU hDD
    obtain ⟨d, D2, rfl⟩ : ∃ d D2, D = d :: D2 := by
      cases D with
      | nil => exact absurd rfl hD
      | cons d D2 => exact ⟨d, D2, rfl⟩
    have hdig : pyIsDigit d = true := hDD d (by simp)
    have hdup : d.isUpper = false := pyIsDigit_not_isUpper d hdig
    have ht : (L ++ d :: D2).takeWhile Char.isUpper = L := by
      rw [takeWhile_all_append Char.isUpper L (d :: D2) hLU]
      simp [List.takeWhile_cons, hdup]
    have hd2 : (L ++ d :: D2).dropWhile Char.isUpper = d :: D2 := by
      rw [dropWhile_all_append Char.isUpper L (d :: D2) hLU]
      simp [List.dropWhile_cons, hdup]
    rcases hT with rfl | rfl
    · have hlast : (L ++ d :: D2).getLast? = (d :: D2).getLast? :=
        List.getLast?_append_of_ne_nil L (by simp)
      have hgl : (d :: D2).getLast? = some ((d :: D2).getLast (by simp)) :=
        List.getLast?_eq_getLast_of_ne_nil (by simp)
      have hlastdig : pyIsDigit ((d :: D2).getLast (by simp)) = true :=
        hDD _ (List.getLast_mem (by simp))
      have hnl : ¬ ((L ++ d :: D2).getLast? = some '\n') := by
        rw [hlast, hgl]
        intro hh
        injection hh with hh
        rw [hh] at hlastdig
        exact absurd hlastdig (by decide)
      simp only [List.append_nil, normalizeBillId]
      rw [show (String.mk (L ++ d :: D2)).toList = L ++ d :: D2 from rfl]
      simp only [if_neg hnl]
      rw [ht, hd2]
      rw [if_pos ⟨hL, by simp, by rw [List.all_eq_true]; exact hDD⟩]
      simp
    · have hnl : ((L ++ d :: D2) ++ ['\n']).getLast? = some '\n' :=
        List.getLast?_concat _
      have hdrop : ((L ++ d :: D2) ++ ['\n']).dropLast = L ++ d :: D2 :=
        List.dropLast_concat
      simp only [normalizeBillId]
      rw [show (String.mk (L ++ d :: D2 ++ ['\n'])).toList = (L ++ d :: D2) ++ ['\n']
        from rfl]
      simp only [if_pos hnl]
      rw [hdrop, ht, hd2]
      rw [if_pos ⟨hL, by simp, by rw [List.all_eq_true]; exact hDD⟩]
  · intro s hns
    simp only [normalizeBillId]
    by_cases hnl : s.toList.getLast? = some '\n'
    · simp only [if_pos hnl]
      rw [if_neg]
      rintro ⟨h1, h2, h3⟩
      apply hns
      refine ⟨s.toList.dropLast.takeWhile Char.isUpper,
        s.toList.dropLast.dropWhile Char.isUpper, ['\n'], Or.inr rfl, h1, h2,
        ?_, ?_, ?_⟩
      · intro c hc
        exact List.mem_takeWhile_imp hc
      · exact List.all_eq_true.mp h3
      · rw [List.takeWhile_append_dropWhile]
        exact (List.dropLast_append_getLast? '\n' hnl).symm
    · simp only [if_neg hnl]
      rw [if_neg]
      rintro ⟨h1, h2, h3⟩
      apply hns
      refine ⟨s.toList.takeWhile Char.isUpper, s.toList.dropWhile Char.isUpper,
        [], Or.inl rfl, h1, h2, ?_, ?_, ?_⟩
      · intro c hc
        exact List.mem_takeWhile_imp hc
      · exact List.all_eq_true.mp h3
      · rw [List.append_nil, List.takeWhile_append_dropWhile]

/-- Witness for the amended C7: "AB123" followed by a newline gains one
space and keeps the newline; "123AB" passes through. -/
theorem normalize_bill_id_amended_witness :
    normalizeBillId (String.mk (['A', 'B'] ++ ['1', '2', '3'] ++ ['\n'])) =
      String.mk (['A', 'B'] ++ ' ' :: ['1', '2', '3'] ++ ['\n']) ∧
    normalizeBillId "123AB" = "123AB" := by
  constructor
  · exact normalize_bill_id_amended.1 ['A', 'B'] ['1', '2', '3'] ['\n']
      (Or.inr rfl) (by decide) (by decide) (by decide) (by decide)
  · refine normalize_bill_id_amended.2 "123AB" ?_
    rintro ⟨L, D, T, hT, hL, hD, hLU, hDD, heq⟩
    rcases hT with rfl | rfl
    · rw [List.append_nil] at heq
      cases L with
      | nil => exact hL rfl
      | cons c L2 =>
        have heq2 : ('1' :: '2' :: '3' :: 'A' :: 'B' :: []) = c :: (L2 ++ D) := heq
        injection heq2 with hc htail
        have hupper := hLU c (by simp)
        rw [← hc] at hupper
        exact absurd hupper (by decide)
    · have h1 : ("123AB".toList).getLast? = some 'B' := by decide
      rw [heq, List.getLast?_concat] at h1
      injection h1 with h1
      exact absurd h1 (by decide)
